import Mathlib

/-
  Verification of the rustydb durability core (MemTable + WAL + recovery).

  Shallow embedding of:
    src/memtable.rs      - sorted in-memory index with byte-size accounting
    src/wal.rs           - record encoder (Wal::set / Wal::delete) and the
                           recovery protocol Wal::load_from_dir
    src/wal_iterator.rs  - segment reader (WalIterator)
    src/wal/iterator.rs  - the duplicated segment reader
    src/utils.rs         - external directory-listing helper (modelled as the
                           input file list; the spec guarantees no ordering)

  Bytes are modelled as Nat (Rust u8 values are < 256; where a theorem needs
  that bound it carries it as a hypothesis), usize as Nat with explicit
  mod-2^64 truncation inside the little-endian codec, u128 likewise with 16
  little-endian bytes.
-/

set_option maxHeartbeats 1000000

namespace RustyDb

/-- Byte-lexicographic strict order on byte slices, as produced by Rust's
`Ord` on `&[u8]` (element-wise, a strict prefix is smaller). -/
def keyLt : List Nat → List Nat → Bool
  | [], [] => false
  | [], _ :: _ => true
  | _ :: _, [] => false
  | a :: as, b :: bs => if a < b then true else if b < a then false else keyLt as bs

theorem keyLt_irrefl (a : List Nat) : keyLt a a = false := by
  induction a with
  | nil => rfl
  | cons x xs ih => simp [keyLt, ih]

theorem keyLt_of_not_of_ne {a b : List Nat} (h : keyLt a b = false) (hne : a ≠ b) :
    keyLt b a = true := by
  induction a generalizing b with
  | nil =>
    cases b with
    | nil => exact absurd rfl hne
    | cons y ys => simp [keyLt] at h
  | cons x xs ih =>
    cases b with
    | nil => simp [keyLt]
    | cons y ys =>
      simp only [keyLt] at h ⊢
      rcases Nat.lt_trichotomy x y with hxy | hxy | hxy
      · simp [hxy, Nat.not_lt.mpr (Nat.le_of_lt hxy)] at h
      · subst hxy
        simp only [Nat.lt_irrefl, if_false] at h ⊢
        exact ih h (by intro hc; exact hne (by rw [hc]))
      · simp [hxy, Nat.not_lt.mpr (Nat.le_of_lt hxy)]

theorem keyLt_trans {a b c : List Nat} (h1 : keyLt a b = true) (h2 : keyLt b c = true) :
    keyLt a c = true := by
  induction a generalizing b c with
  | nil =>
    cases c with
    | nil =>
      cases b with
      | nil => exact h1
      | cons y ys => simp [keyLt] at h2
    | cons z zs => simp [keyLt]
  | cons x xs ih =>
    cases b with
    | nil => simp [keyLt] at h1
    | cons y ys =>
      cases c with
      | nil => simp [keyLt] at h2
      | cons z zs =>
        simp only [keyLt] at h1 h2 ⊢
        rcases Nat.lt_trichotomy x y with hxy | hxy | hxy
        · rcases Nat.lt_trichotomy y z with hyz | hyz | hyz
          · simp [Nat.lt_trans hxy hyz]
          · subst hyz; simp [hxy]
          · simp [hyz, Nat.not_lt.mpr (Nat.le_of_lt hyz)] at h2
        · subst hxy
          rcases Nat.lt_trichotomy x z with hyz | hyz | hyz
          · simp [hyz]
          · subst hyz
            simp only [Nat.lt_irrefl, if_false] at h1 h2 ⊢
            exact ih h1 h2
          · simp [hyz, Nat.not_lt.mpr (Nat.le_of_lt hyz)] at h2
        · simp [hxy, Nat.not_lt.mpr (Nat.le_of_lt hxy)] at h1

theorem keyLt_ne {a b : List Nat} (h : keyLt a b = true) : a ≠ b := by
  intro hc; subst hc; rw [keyLt_irrefl] at h; exact Bool.noConfusion h

theorem keyLt_asymm {a b : List Nat} (h : keyLt a b = true) : keyLt b a = false := by
  cases hba : keyLt b a with
  | false => rfl
  | true => exact absurd (keyLt_trans h hba) (by simp [keyLt_irrefl])

/-- In-memory counterpart of a Record (src/memtable.rs, `MemTableEntry`). -/
structure MemTableEntry where
  key : List Nat
  value : Option (List Nat)
  timestamp : Nat
  deleted : Bool
deriving DecidableEq

/-- The MemTable (src/memtable.rs): an entry vector plus the `size` counter. -/
structure MemTable where
  entries : List MemTableEntry
  size : Nat
deriving DecidableEq

/-- Models `slice::binary_search_by_key` (std) through its documented
contract on a key-sorted slice: `inl idx` when the entry at `idx` has the
searched key, `inr idx` with the sorted insertion point otherwise.  The
MemTable keeps `entries` sorted by key (proved below), which is the
precondition of the std contract used by `MemTable::get_index`. -/
def findSlot (key : List Nat) : List MemTableEntry → Sum Nat Nat
  | [] => Sum.inr 0
  | e :: rest =>
    if keyLt e.key key then
      match findSlot key rest with
      | Sum.inl i => Sum.inl (i + 1)
      | Sum.inr i => Sum.inr (i + 1)
    else if e.key = key then Sum.inl 0
    else Sum.inr 0

/-- `MemTable::get_index` (src/memtable.rs lines 22-25). -/
def MemTable.get_index (m : MemTable) (key : List Nat) : Sum Nat Nat :=
  findSlot key m.entries

/-- `MemTable::new` (src/memtable.rs lines 15-20). -/
def MemTable.new : MemTable := { entries := [], size := 0 }

/-- `MemTable::set` (src/memtable.rs lines 27-50).  Note the source replaces
`self.entries[idx]` with the new entry *before* reading
`self.entries[idx].value`, so the value length it compares against is the
new value's own length. -/
def MemTable.set (m : MemTable) (key value : List Nat) (timestamp : Nat) : MemTable :=
  let entry : MemTableEntry :=
    { key := key, value := some value, timestamp := timestamp, deleted := false }
  match m.get_index key with
  | Sum.inl idx =>
    let entries := m.entries.set idx entry
    match (entries.get? idx).bind MemTableEntry.value with
    | some v =>
      if value.length < v.length then
        { entries := entries, size := m.size - (v.length - value.length) }
      else
        { entries := entries, size := m.size + (value.length - v.length) }
    | none => { entries := entries, size := m.size }
  | Sum.inr idx =>
    { entries := m.entries.insertIdx idx entry
      size := m.size + (key.length + value.length + 16 + 1) }

/-- `MemTable::delete` (src/memtable.rs lines 52-71).  As in `set`, the
entry is replaced before its value is read, so the `Some(v)` branch that
would subtract the old value length never fires (the new entry is a
tombstone). -/
def MemTable.delete (m : MemTable) (key : List Nat) (timestamp : Nat) : MemTable :=
  let entry : MemTableEntry :=
    { key := key, value := none, timestamp := timestamp, deleted := true }
  match m.get_index key with
  | Sum.inl idx =>
    let entries := m.entries.set idx entry
    match (entries.get? idx).bind MemTableEntry.value with
    | some v => { entries := entries, size := m.size - v.length }
    | none => { entries := entries, size := m.size }
  | Sum.inr idx =>
    { entries := m.entries.insertIdx idx entry
      size := m.size + (key.length + 16 + 1) }

/-- `MemTable::get` (src/memtable.rs lines 73-78). -/
def MemTable.get (m : MemTable) (key : List Nat) : Option MemTableEntry :=
  match m.get_index key with
  | Sum.inl idx => m.entries.get? idx
  | Sum.inr _ => none

/-- `MemTable::len` (src/memtable.rs lines 80-82). -/
def MemTable.len (m : MemTable) : Nat := m.entries.length

/-!  Recursive characterizations of the entry-vector effect of `set`,
`delete` and `get`.  These are proof devices: each is proved equal to the
corresponding source operation (for every entry list), and the sortedness
and last-write-wins facts are then established by structural induction. -/

/-- One-pass insert-or-replace at the slot `findSlot` designates. -/
def upsert (entry : MemTableEntry) : List MemTableEntry → List MemTableEntry
  | [] => [entry]
  | e :: rest =>
    if keyLt e.key entry.key then e :: upsert entry rest
    else if e.key = entry.key then entry :: rest
    else entry :: e :: rest

/-- One-pass lookup through the slot `findSlot` designates. -/
def lookupE : List MemTableEntry → List Nat → Option MemTableEntry
  | [], _ => none
  | e :: rest, k =>
    if keyLt e.key k then lookupE rest k
    else if e.key = k then some e else none

theorem set_entries_shape (m : MemTable) (k v : List Nat) (ts : Nat) :
    (MemTable.set m k v ts).entries =
      (match m.get_index k with
       | Sum.inl idx =>
          m.entries.set idx { key := k, value := some v, timestamp := ts, deleted := false }
       | Sum.inr idx =>
          m.entries.insertIdx idx
            { key := k, value := some v, timestamp := ts, deleted := false }) := by
  cases h : m.get_index k with
  | inl idx =>
    simp only [MemTable.set, h]
    cases hv : ((m.entries.set idx
        { key := k, value := some v, timestamp := ts, deleted := false }).get? idx).bind
        MemTableEntry.value with
    | none => rfl
    | some w =>
      by_cases hw : v.length < w.length <;> simp [hv, hw]
  | inr idx => simp [MemTable.set, h]

theorem delete_entries_shape (m : MemTable) (k : List Nat) (ts : Nat) :
    (MemTable.delete m k ts).entries =
      (match m.get_index k with
       | Sum.inl idx =>
          m.entries.set idx { key := k, value := none, timestamp := ts, deleted := true }
       | Sum.inr idx =>
          m.entries.insertIdx idx
            { key := k, value := none, timestamp := ts, deleted := true }) := by
  cases h : m.get_index k with
  | inl idx =>
    simp only [MemTable.delete, h]
    cases hv : ((m.entries.set idx
        { key := k, value := none, timestamp := ts, deleted := true }).get? idx).bind
        MemTableEntry.value with
    | none => rfl
    | some w => simp [hv]
  | inr idx => simp [MemTable.delete, h]

theorem slot_upsert (entry : MemTableEntry) (l : List MemTableEntry) :
    (match findSlot entry.key l with
     | Sum.inl idx => l.set idx entry
     | Sum.inr idx => l.insertIdx idx entry) = upsert entry l := by
  induction l with
  | nil => rfl
  | cons e rest ih =>
    simp only [findSlot, upsert]
    by_cases hlt : keyLt e.key entry.key
    · simp only [hlt, if_true]
      cases hfs : findSlot entry.key rest with
      | inl i =>
        simp only [hfs] at ih
        simpa [List.set_cons_succ] using congrArg (e :: ·) ih
      | inr i =>
        simp only [hfs] at ih
        simpa [List.insertIdx_succ_cons] using congrArg (e :: ·) ih
    · by_cases heq : e.key = entry.key
      · simp [heq, keyLt_irrefl]
      · simp [hlt, heq]

theorem set_entries_eq (l : List MemTableEntry) (s : Nat) (k v : List Nat) (ts : Nat) :
    (MemTable.set { entries := l, size := s } k v ts).entries =
      upsert { key := k, value := some v, timestamp := ts, deleted := false } l := by
  rw [set_entries_shape]
  exact slot_upsert { key := k, value := some v, timestamp := ts, deleted := false } l

theorem delete_entries_eq (l : List MemTableEntry) (s : Nat) (k : List Nat) (ts : Nat) :
    (MemTable.delete { entries := l, size := s } k ts).entries =
      upsert { key := k, value := none, timestamp := ts, deleted := true } l := by
  rw [delete_entries_shape]
  exact slot_upsert { key := k, value := none, timestamp := ts, deleted := true } l

theorem get_eq_lookup (l : List MemTableEntry) (s : Nat) (k : List Nat) :
    MemTable.get { entries := l, size := s } k = lookupE l k := by
  induction l with
  | nil => rfl
  | cons e rest ih =>
    simp only [MemTable.get, MemTable.get_index, findSlot, lookupE] at ih ⊢
    by_cases hlt : keyLt e.key k
    · simp only [hlt, if_true]
      cases hfs : findSlot k rest with
      | inl i =>
        simp only [hfs] at ih ⊢
        simpa using ih
      | inr i =>
        simp only [hfs] at ih ⊢
        exact ih
    · simp only [hlt, if_false]
      by_cases heq : e.key = k
      · simp only [heq, if_true]; rfl
      · simp only [heq, if_false]; rfl

theorem lookup_upsert (entry : MemTableEntry) (l : List MemTableEntry) (k : List Nat) :
    lookupE (upsert entry l) k =
      if k = entry.key then some entry else lookupE l k := by
  induction l with
  | nil =>
    by_cases hk : k = entry.key
    · subst hk; simp [upsert, lookupE, keyLt_irrefl]
    · have hk2 : entry.key ≠ k := fun hc => hk hc.symm
      simp [upsert, lookupE, hk, hk2]
  | cons e rest ih =>
    simp only [upsert]
    by_cases hlt : keyLt e.key entry.key
    · simp only [hlt, if_true, lookupE]
      by_cases hek : keyLt e.key k
      · simp [hek, ih, lookupE]
      · by_cases heq : e.key = k
        · have hk : k ≠ entry.key := by
            intro hc
            rw [heq.trans hc, keyLt_irrefl] at hlt
            exact Bool.noConfusion hlt
          simp [hek, heq, hk, lookupE, keyLt_irrefl]
        · have hk : k ≠ entry.key := by
            intro hc; rw [← hc] at hlt; exact hek hlt
          simp [hek, heq, hk, lookupE]
    · by_cases heq : e.key = entry.key
      · rw [if_neg hlt, if_pos heq]
        simp only [lookupE]
        by_cases hek : keyLt entry.key k
        · have hk : k ≠ entry.key := fun hc => keyLt_ne hek hc.symm
          rw [if_pos hek, if_neg hk, heq, if_pos hek]
        · by_cases hkq : entry.key = k
          · rw [if_neg hek, if_pos hkq, if_pos hkq.symm]
          · have hk : k ≠ entry.key := fun hc => hkq hc.symm
            rw [if_neg hek, if_neg hkq, if_neg hk, heq, if_neg hek, if_neg hkq]
      · have hlt2 : keyLt entry.key e.key = true :=
          keyLt_of_not_of_ne (Bool.of_not_eq_true hlt) heq
        rw [if_neg hlt, if_neg heq]
        simp only [lookupE]
        by_cases hek : keyLt entry.key k
        · have hk : k ≠ entry.key := fun hc => keyLt_ne hek hc.symm
          rw [if_pos hek, if_neg hk]
        · by_cases hkq : entry.key = k
          · rw [if_neg hek, if_pos hkq, if_pos hkq.symm]
          · have hk : k ≠ entry.key := fun hc => hkq hc.symm
            have hk2 : keyLt k entry.key = true :=
              keyLt_of_not_of_ne (Bool.of_not_eq_true hek) hkq
            have hke : keyLt k e.key = true := keyLt_trans hk2 hlt2
            have h1 : keyLt e.key k = false := keyLt_asymm hke
            have h2 : e.key ≠ k := fun hc => keyLt_ne hke hc.symm
            rw [if_neg hek, if_neg hkq, if_neg hk]
            simp [lookupE, h1, h2]

theorem length_upsert (entry : MemTableEntry) (l : List MemTableEntry) :
    (upsert entry l).length =
      if lookupE l entry.key = none then l.length + 1 else l.length := by
  induction l with
  | nil => simp [upsert, lookupE]
  | cons e rest ih =>
    simp only [upsert, lookupE]
    by_cases hlt : keyLt e.key entry.key
    · simp only [hlt, if_true, List.length_cons, ih]
      by_cases hc : lookupE rest entry.key = none <;> simp [hc]
    · by_cases heq : e.key = entry.key
      · simp [hlt, heq, keyLt_irrefl]
      · simp [hlt, heq]

theorem mem_upsert {x entry : MemTableEntry} {l : List MemTableEntry}
    (h : x ∈ upsert entry l) : x = entry ∨ x ∈ l := by
  induction l with
  | nil => simpa [upsert] using h
  | cons e rest ih =>
    by_cases hlt : keyLt e.key entry.key
    · rw [upsert, if_pos hlt] at h
      rcases List.mem_cons.mp h with h | h
      · right; simp [h]
      · rcases ih h with h | h
        · left; exact h
        · right; simp [h]
    · by_cases heq : e.key = entry.key
      · rw [upsert, if_neg hlt, if_pos heq] at h
        rcases List.mem_cons.mp h with h | h
        · left; exact h
        · right; simp [h]
      · rw [upsert, if_neg hlt, if_neg heq] at h
        rcases List.mem_cons.mp h with h | h
        · left; exact h
        · rcases List.mem_cons.mp h with h | h
          · right; simp [h]
          · right; simp [h]

/-- The MemTable sortedness invariant: entries strictly increasing by key. -/
def sortedEntries (l : List MemTableEntry) : Prop :=
  l.Pairwise (fun a b => keyLt a.key b.key = true)

instance : DecidablePred sortedEntries := fun l =>
  inferInstanceAs (Decidable (l.Pairwise _))

theorem sortedEntries_upsert {l : List MemTableEntry} (entry : MemTableEntry)
    (h : sortedEntries l) : sortedEntries (upsert entry l) := by
  induction l with
  | nil => simp [upsert, sortedEntries]
  | cons e rest ih =>
    rw [sortedEntries, List.pairwise_cons] at h
    obtain ⟨hhead, htail⟩ := h
    simp only [upsert]
    by_cases hlt : keyLt e.key entry.key
    · rw [if_pos hlt, sortedEntries, List.pairwise_cons]
      refine ⟨?_, ih htail⟩
      intro x hx
      rcases mem_upsert hx with hx | hx
      · subst hx; exact hlt
      · exact hhead x hx
    · by_cases heq : e.key = entry.key
      · rw [if_neg hlt, if_pos heq, sortedEntries, List.pairwise_cons]
        exact ⟨fun x hx => heq ▸ hhead x hx, htail⟩
      · have hlt2 : keyLt entry.key e.key = true :=
          keyLt_of_not_of_ne (Bool.of_not_eq_true hlt) heq
        rw [if_neg hlt, if_neg heq, sortedEntries, List.pairwise_cons]
        constructor
        · intro x hx
          rcases List.mem_cons.mp hx with hx | hx
          · subst hx; exact hlt2
          · exact keyLt_trans hlt2 (hhead x hx)
        · rw [List.pairwise_cons]
          exact ⟨hhead, htail⟩

theorem get_entries (m : MemTable) (k : List Nat) :
    m.get k = lookupE m.entries k := by
  cases m with
  | mk l s => exact get_eq_lookup l s k

theorem set_entries (m : MemTable) (k v : List Nat) (ts : Nat) :
    (m.set k v ts).entries =
      upsert { key := k, value := some v, timestamp := ts, deleted := false } m.entries := by
  cases m with
  | mk l s => exact set_entries_eq l s k v ts

theorem delete_entries (m : MemTable) (k : List Nat) (ts : Nat) :
    (m.delete k ts).entries =
      upsert { key := k, value := none, timestamp := ts, deleted := true } m.entries := by
  cases m with
  | mk l s => exact delete_entries_eq l s k ts

/-!  Operation sequences against the MemTable (set / delete calls). -/

/-- One MemTable mutation call. -/
inductive Op where
  | setOp (key value : List Nat) (timestamp : Nat)
  | delOp (key : List Nat) (timestamp : Nat)
deriving DecidableEq

/-- The key an operation touches. -/
def Op.key : Op → List Nat
  | .setOp k _ _ => k
  | .delOp k _ => k

/-- The entry the operation stores for its key. -/
def Op.entry : Op → MemTableEntry
  | .setOp k v ts => { key := k, value := some v, timestamp := ts, deleted := false }
  | .delOp k ts => { key := k, value := none, timestamp := ts, deleted := true }

/-- Dispatch one call to the MemTable. -/
def applyOp (m : MemTable) : Op → MemTable
  | .setOp k v ts => m.set k v ts
  | .delOp k ts => m.delete k ts

/-- Run a call sequence from the empty MemTable. -/
def applyOps (ops : List Op) : MemTable :=
  ops.foldl applyOp MemTable.new

/-- The last operation of the sequence touching key `k`, if any. -/
def lastOp (ops : List Op) (k : List Nat) : Option Op :=
  (ops.filter (fun o => decide (o.key = k))).getLast?

theorem applyOp_entries (m : MemTable) (op : Op) :
    (applyOp m op).entries = upsert op.entry m.entries := by
  cases op with
  | setOp k v ts => exact set_entries m k v ts
  | delOp k ts => exact delete_entries m k ts

theorem get_applyOp (m : MemTable) (op : Op) (k : List Nat) :
    (applyOp m op).get k = if k = op.key then some op.entry else m.get k := by
  have hkey : (Op.entry op).key = op.key := by cases op <;> rfl
  rw [get_entries, applyOp_entries, lookup_upsert, hkey, get_entries]

theorem len_applyOp (m : MemTable) (op : Op) :
    (applyOp m op).len =
      if m.get op.key = none then m.len + 1 else m.len := by
  have hkey : (Op.entry op).key = op.key := by cases op <;> rfl
  rw [MemTable.len, applyOp_entries, length_upsert, hkey, ← get_entries, MemTable.len]

theorem lastOp_append (ops : List Op) (op : Op) (k : List Nat) :
    lastOp (ops ++ [op]) k = if k = op.key then some op else lastOp ops k := by
  rw [lastOp, List.filter_append]
  by_cases h : op.key = k
  · rw [if_pos h.symm]
    have : List.filter (fun o => decide (o.key = k)) [op] = [op] := by simp [h]
    rw [this, List.getLast?_concat]
  · rw [if_neg (fun hc => h hc.symm)]
    have : List.filter (fun o => decide (o.key = k)) [op] = [] := by simp [h]
    rw [this, List.append_nil, lastOp]

theorem lastOp_eq_none_iff (ops : List Op) (k : List Nat) :
    lastOp ops k = none ↔ k ∉ ops.map Op.key := by
  rw [lastOp, List.getLast?_eq_none_iff, List.filter_eq_nil_iff]
  constructor
  · intro h hc
    rcases List.mem_map.mp hc with ⟨o, ho, hk⟩
    exact h o ho (by simp [hk])
  · intro h o ho
    simp only [decide_eq_true_eq]
    intro hc
    exact h (List.mem_map.mpr ⟨o, ho, hc⟩)

theorem applyOps_append (ops : List Op) (op : Op) :
    applyOps (ops ++ [op]) = applyOp (applyOps ops) op := by
  rw [applyOps, List.foldl_append, List.foldl_cons, List.foldl_nil, applyOps]

theorem applyOps_get (ops : List Op) (k : List Nat) :
    (applyOps ops).get k = (lastOp ops k).map Op.entry := by
  induction ops using List.reverseRecOn with
  | nil => rfl
  | append_singleton ops op ih =>
    rw [applyOps_append, get_applyOp, lastOp_append]
    by_cases h : k = op.key
    · simp [h]
    · simp [h, ih]

theorem applyOps_len (ops : List Op) :
    (applyOps ops).len = (ops.map Op.key).toFinset.card := by
  induction ops using List.reverseRecOn with
  | nil => rfl
  | append_singleton ops op ih =>
    rw [applyOps_append, len_applyOp, List.map_append, List.toFinset_append]
    simp only [List.map_cons, List.map_nil, List.toFinset_cons, List.toFinset_nil]
    rw [Finset.union_insert, Finset.union_empty]
    by_cases h : op.key ∈ ops.map Op.key
    · have hnone : ¬(applyOps ops).get op.key = none := by
        rw [applyOps_get]
        cases hl : lastOp ops op.key with
        | none => exact absurd h ((lastOp_eq_none_iff ops op.key).mp hl)
        | some o => simp
      rw [if_neg hnone, ih, Finset.card_insert_of_mem (List.mem_toFinset.mpr h)]
    · have hnone : (applyOps ops).get op.key = none := by
        rw [applyOps_get, (lastOp_eq_none_iff ops op.key).mpr h]
        rfl
      rw [if_pos hnone, ih,
        Finset.card_insert_of_not_mem (fun hc => h (List.mem_toFinset.mp hc))]

theorem sorted_applyOps (ops : List Op) : sortedEntries (applyOps ops).entries := by
  induction ops using List.reverseRecOn with
  | nil => simp [applyOps, MemTable.new, sortedEntries]
  | append_singleton ops op ih =>
    rw [applyOps_append, applyOp_entries]
    exact sortedEntries_upsert _ ih

/-!  Record codec (src/wal.rs lines 60-80) and segment reader
(src/wal_iterator.rs).  A byte stream is a `List Nat`; the writer only
emits values < 256.  Little-endian fixed-width integer fields follow
`usize::to_le_bytes` / `u128::to_le_bytes`. -/

/-- `w`-byte little-endian image of `n` (truncating at 2^(8w), as
`to_le_bytes` does for a machine integer). -/
def leBytes : Nat → Nat → List Nat
  | 0, _ => []
  | w + 1, n => n % 256 :: leBytes w (n / 256)

/-- `from_le_bytes` over a byte buffer. -/
def fromLeBytes (bs : List Nat) : Nat :=
  bs.foldr (fun b acc => b + 256 * acc) 0

theorem leBytes_length (w n : Nat) : (leBytes w n).length = w := by
  induction w generalizing n with
  | zero => rfl
  | succ w ih => simp [leBytes, ih]

theorem fromLeBytes_leBytes (w n : Nat) : fromLeBytes (leBytes w n) = n % 256 ^ w := by
  induction w generalizing n with
  | zero => simp [leBytes, fromLeBytes, Nat.mod_one]
  | succ w ih =>
    have : fromLeBytes (n % 256 :: leBytes w (n / 256)) =
        n % 256 + 256 * fromLeBytes (leBytes w (n / 256)) := rfl
    rw [leBytes, this, ih, pow_succ, mul_comm (256 ^ w) 256, Nat.mod_mul]

theorem fromLeBytes_leBytes_of_lt {w n : Nat} (h : n < 256 ^ w) :
    fromLeBytes (leBytes w n) = n := by
  rw [fromLeBytes_leBytes, Nat.mod_eq_of_lt h]

/-- `Read::read_exact` into an `n`-byte buffer: succeeds iff `n` bytes are
available, splitting them off the stream; any shortfall is an error
(modelled as `none`). -/
def readExact (n : Nat) (bs : List Nat) : Option (List Nat × List Nat) :=
  if n ≤ bs.length then some (bs.take n, bs.drop n) else none

/-- `WalIterator::read_bool` (src/wal_iterator.rs lines 48-54). -/
def read_bool (bs : List Nat) : Option (Bool × List Nat) :=
  match readExact 1 bs with
  | some (b, rest) => some (b.headD 0 != 0, rest)
  | none => none

/-- `WalIterator::read_timestamp` (src/wal_iterator.rs lines 56-62). -/
def read_timestamp (bs : List Nat) : Option (Nat × List Nat) :=
  match readExact 16 bs with
  | some (b, rest) => some (fromLeBytes b, rest)
  | none => none

/-- `WalIterator::read_size` (src/wal_iterator.rs lines 32-38). -/
def read_size (bs : List Nat) : Option (Nat × List Nat) :=
  match readExact 8 bs with
  | some (b, rest) => some (fromLeBytes b, rest)
  | none => none

/-- `WalIterator::read_vec` (src/wal_iterator.rs lines 40-46). -/
def read_vec (size : Nat) (bs : List Nat) : Option (List Nat × List Nat) :=
  readExact size bs

/-- A decoded log record (src/wal.rs, `WalEntry`). -/
structure WalEntry where
  key : List Nat
  value : Option (List Nat)
  timestamp : Nat
  deleted : Bool
deriving DecidableEq

/-- `Iterator::next for WalIterator` (src/wal_iterator.rs lines 68-84): one
record is decoded field by field, any failing read (the `?` operator)
ending the iteration. -/
def walNext (bs : List Nat) : Option (WalEntry × List Nat) :=
  match read_bool bs with
  | none => none
  | some (deleted, bs1) =>
  match read_timestamp bs1 with
  | none => none
  | some (timestamp, bs2) =>
  match read_size bs2 with
  | none => none
  | some (key_size, bs3) =>
  match read_vec key_size bs3 with
  | none => none
  | some (key, bs4) =>
    if deleted then
      some ({ key := key, value := none, timestamp := timestamp, deleted := deleted }, bs4)
    else
      match read_size bs4 with
      | none => none
      | some (val_size, bs5) =>
      match read_vec val_size bs5 with
      | none => none
      | some (value, bs6) =>
        some ({ key := key, value := some value, timestamp := timestamp,
                deleted := deleted }, bs6)

theorem readExact_some {n : Nat} {bs v rest : List Nat}
    (h : readExact n bs = some (v, rest)) :
    v = bs.take n ∧ rest = bs.drop n ∧ n ≤ bs.length := by
  rw [readExact] at h
  by_cases hle : n ≤ bs.length
  · rw [if_pos hle] at h
    injection h with h2
    injection h2 with ha hb
    exact ⟨ha.symm, hb.symm, hle⟩
  · rw [if_neg hle] at h
    exact Option.noConfusion h

theorem read_bool_some {bs : List Nat} {d : Bool} {rest : List Nat}
    (h : read_bool bs = some (d, rest)) : rest = bs.drop 1 ∧ 1 ≤ bs.length := by
  rw [read_bool] at h
  cases hr : readExact 1 bs with
  | none => rw [hr] at h; exact Option.noConfusion h
  | some pr =>
    obtain ⟨b, r⟩ := pr
    rw [hr] at h
    obtain ⟨-, hrest, hle⟩ := readExact_some hr
    injection h with h2
    injection h2 with ha hb
    exact ⟨hb ▸ hrest, hle⟩

theorem read_timestamp_some {bs : List Nat} {ts : Nat} {rest : List Nat}
    (h : read_timestamp bs = some (ts, rest)) : rest = bs.drop 16 ∧ 16 ≤ bs.length := by
  rw [read_timestamp] at h
  cases hr : readExact 16 bs with
  | none => rw [hr] at h; exact Option.noConfusion h
  | some pr =>
    obtain ⟨b, r⟩ := pr
    rw [hr] at h
    obtain ⟨-, hrest, hle⟩ := readExact_some hr
    injection h with h2
    injection h2 with ha hb
    exact ⟨hb ▸ hrest, hle⟩

theorem read_size_some {bs : List Nat} {n : Nat} {rest : List Nat}
    (h : read_size bs = some (n, rest)) : rest = bs.drop 8 ∧ 8 ≤ bs.length := by
  rw [read_size] at h
  cases hr : readExact 8 bs with
  | none => rw [hr] at h; exact Option.noConfusion h
  | some pr =>
    obtain ⟨b, r⟩ := pr
    rw [hr] at h
    obtain ⟨-, hrest, hle⟩ := readExact_some hr
    injection h with h2
    injection h2 with ha hb
    exact ⟨hb ▸ hrest, hle⟩

theorem read_vec_some {n : Nat} {bs v rest : List Nat}
    (h : read_vec n bs = some (v, rest)) : rest = bs.drop n ∧ n ≤ bs.length := by
  obtain ⟨-, hrest, hle⟩ := readExact_some (h : readExact n bs = some (v, rest))
  exact ⟨hrest, hle⟩

theorem walNext_length {bs : List Nat} {e : WalEntry} {rest : List Nat}
    (h : walNext bs = some (e, rest)) : rest.length < bs.length := by
  rw [walNext] at h
  cases h1 : read_bool bs with
  | none => simp [h1] at h
  | some p1 =>
    obtain ⟨deleted, bs1⟩ := p1
    simp only [h1] at h
    obtain ⟨hr1, hl1⟩ := read_bool_some h1
    cases h2 : read_timestamp bs1 with
    | none => simp [h2] at h
    | some p2 =>
      obtain ⟨ts, bs2⟩ := p2
      simp only [h2] at h
      obtain ⟨hr2, hl2⟩ := read_timestamp_some h2
      cases h3 : read_size bs2 with
      | none => simp [h3] at h
      | some p3 =>
        obtain ⟨ksz, bs3⟩ := p3
        simp only [h3] at h
        obtain ⟨hr3, hl3⟩ := read_size_some h3
        cases h4 : read_vec ksz bs3 with
        | none => simp [h4] at h
        | some p4 =>
          obtain ⟨key, bs4⟩ := p4
          simp only [h4] at h
          obtain ⟨hr4, hl4⟩ := read_vec_some h4
          have len4 : bs4.length < bs.length := by
            subst hr1 hr2 hr3 hr4
            simp only [List.length_drop]
            omega
          by_cases hdel : deleted = true
          · rw [if_pos hdel] at h
            injection h with h2
            injection h2 with ha hb
            exact hb ▸ len4
          · rw [if_neg hdel] at h
            cases h5 : read_size bs4 with
            | none => simp [h5] at h
            | some p5 =>
              obtain ⟨vsz, bs5⟩ := p5
              simp only [h5] at h
              obtain ⟨hr5, hl5⟩ := read_size_some h5
              cases h6 : read_vec vsz bs5 with
              | none => simp [h6] at h
              | some p6 =>
                obtain ⟨value, bs6⟩ := p6
                simp only [h6] at h
                obtain ⟨hr6, hl6⟩ := read_vec_some h6
                injection h with h2
                injection h2 with ha hb
                subst hr5 hr6
                subst hb
                simp only [List.length_drop]
                omega

/-- Fuel-bounded iteration of `walNext`; each successful `next` consumes at
least one byte, so `bs.length` fuel always suffices (`walDecode_eq`). -/
def walDecodeFuel : Nat → List Nat → List WalEntry
  | 0, _ => []
  | fuel + 1, bs =>
    match walNext bs with
    | none => []
    | some (e, rest) => e :: walDecodeFuel fuel rest

/-- The full record sequence the `WalIterator` produces on a byte stream:
records until the first failing read. -/
def walDecode (bs : List Nat) : List WalEntry :=
  walDecodeFuel bs.length bs

theorem walDecodeFuel_congr (f1 f2 : Nat) (bs : List Nat)
    (h1 : bs.length ≤ f1) (h2 : bs.length ≤ f2) :
    walDecodeFuel f1 bs = walDecodeFuel f2 bs := by
  induction f1 generalizing f2 bs with
  | zero =>
    have : bs = [] := List.length_eq_zero.mp (Nat.le_zero.mp h1)
    subst this
    cases f2 with
    | zero => rfl
    | succ f2 => simp [walDecodeFuel, walNext, read_bool, readExact]
  | succ f1 ih =>
    cases f2 with
    | zero =>
      have : bs = [] := List.length_eq_zero.mp (Nat.le_zero.mp h2)
      subst this
      simp [walDecodeFuel, walNext, read_bool, readExact]
    | succ f2 =>
      simp only [walDecodeFuel]
      cases hn : walNext bs with
      | none => rfl
      | some p =>
        obtain ⟨e, rest⟩ := p
        have := walNext_length hn
        show e :: walDecodeFuel f1 rest = e :: walDecodeFuel f2 rest
        rw [ih f2 rest (by omega) (by omega)]

/-- The defining one-step unfolding of the segment reader. -/
theorem walDecode_eq (bs : List Nat) :
    walDecode bs =
      (match walNext bs with
       | none => []
       | some (e, rest) => e :: walDecode rest) := by
  rw [walDecode]
  cases hl : bs.length with
  | zero =>
    have : bs = [] := List.length_eq_zero.mp hl
    subst this
    simp [walDecodeFuel, walNext, read_bool, readExact]
  | succ n =>
    simp only [walDecodeFuel]
    cases hn : walNext bs with
    | none => rfl
    | some p =>
      obtain ⟨e, rest⟩ := p
      have := walNext_length hn
      show e :: walDecodeFuel n rest = e :: walDecode rest
      unfold walDecode
      rw [walDecodeFuel_congr n rest.length rest (by omega) (by omega)]

/-!  The duplicated segment reader, src/wal/iterator.rs.  Its bodies are
embedded separately (they are textually near-identical to
src/wal_iterator.rs); claim C9 proves the two produce the same record
sequence on every stream. -/

/-- `WalIterator::read_bool` (src/wal/iterator.rs lines 48-54). -/
def read_bool2 (bs : List Nat) : Option (Bool × List Nat) :=
  match readExact 1 bs with
  | some (b, rest) => some (b.headD 0 != 0, rest)
  | none => none

/-- `WalIterator::read_timestamp` (src/wal/iterator.rs lines 56-62). -/
def read_timestamp2 (bs : List Nat) : Option (Nat × List Nat) :=
  match readExact 16 bs with
  | some (b, rest) => some (fromLeBytes b, rest)
  | none => none

/-- `WalIterator::read_size` (src/wal/iterator.rs lines 32-38). -/
def read_size2 (bs : List Nat) : Option (Nat × List Nat) :=
  match readExact 8 bs with
  | some (b, rest) => some (fromLeBytes b, rest)
  | none => none

/-- `WalIterator::read_vec` (src/wal/iterator.rs lines 40-46). -/
def read_vec2 (size : Nat) (bs : List Nat) : Option (List Nat × List Nat) :=
  readExact size bs

/-- `Iterator::next for WalIterator` (src/wal/iterator.rs lines 68-84). -/
def walNext2 (bs : List Nat) : Option (WalEntry × List Nat) :=
  match read_bool2 bs with
  | none => none
  | some (deleted, bs1) =>
  match read_timestamp2 bs1 with
  | none => none
  | some (timestamp, bs2) =>
  match read_size2 bs2 with
  | none => none
  | some (key_size, bs3) =>
  match read_vec2 key_size bs3 with
  | none => none
  | some (key, bs4) =>
    if deleted then
      some ({ key := key, value := none, timestamp := timestamp, deleted := deleted }, bs4)
    else
      match read_size2 bs4 with
      | none => none
      | some (val_size, bs5) =>
      match read_vec2 val_size bs5 with
      | none => none
      | some (value, bs6) =>
        some ({ key := key, value := some value, timestamp := timestamp,
                deleted := deleted }, bs6)

theorem walNext2_eq_walNext (bs : List Nat) : walNext2 bs = walNext bs := rfl

/-- Fuel-bounded iteration of the duplicated reader. -/
def walDecodeFuel2 : Nat → List Nat → List WalEntry
  | 0, _ => []
  | fuel + 1, bs =>
    match walNext2 bs with
    | none => []
    | some (e, rest) => e :: walDecodeFuel2 fuel rest

/-- Record sequence produced by the duplicated reader (src/wal/iterator.rs). -/
def walDecode2 (bs : List Nat) : List WalEntry :=
  walDecodeFuel2 bs.length bs

theorem walDecodeFuel2_eq (fuel : Nat) (bs : List Nat) :
    walDecodeFuel2 fuel bs = walDecodeFuel fuel bs := by
  induction fuel generalizing bs with
  | zero => rfl
  | succ fuel ih =>
    simp only [walDecodeFuel2, walDecodeFuel, walNext2_eq_walNext]
    cases walNext bs with
    | none => rfl
    | some p => exact congrArg (p.1 :: ·) (ih p.2)

/-!  Encoded record images (src/wal.rs lines 60-80): the exact byte
sequences `Wal::set` and `Wal::delete` append to the segment writer. -/

/-- Bytes written by `Wal::set`: tombstone 0, 16-byte LE timestamp,
8-byte LE key length, key, 8-byte LE value length, value. -/
def encodeSet (key value : List Nat) (timestamp : Nat) : List Nat :=
  [0] ++ leBytes 16 timestamp ++ leBytes 8 key.length ++ key ++
    leBytes 8 value.length ++ value

/-- Bytes written by `Wal::delete`: tombstone 1, 16-byte LE timestamp,
8-byte LE key length, key. -/
def encodeDelete (key : List Nat) (timestamp : Nat) : List Nat :=
  [1] ++ leBytes 16 timestamp ++ leBytes 8 key.length ++ key

theorem readExact_append (l r : List Nat) : readExact l.length (l ++ r) = some (l, r) := by
  rw [readExact, if_pos (by simp)]
  rw [List.take_left, List.drop_left]

theorem read_bool_cons (b : Nat) (rest : List Nat) :
    read_bool (b :: rest) = some (b != 0, rest) := by
  have : readExact 1 (b :: rest) = some ([b], rest) := by
    rw [readExact, if_pos (by simp)]
    rfl
  rw [read_bool, this]
  rfl

theorem read_timestamp_append (ts : Nat) (r : List Nat) :
    read_timestamp (leBytes 16 ts ++ r) = some (ts % 2 ^ 128, r) := by
  have h16 : (leBytes 16 ts).length = 16 := leBytes_length 16 ts
  have := readExact_append (leBytes 16 ts) r
  rw [h16] at this
  rw [read_timestamp, this]
  show some (fromLeBytes (leBytes 16 ts), r) = some (ts % 2 ^ 128, r)
  rw [fromLeBytes_leBytes]
  norm_num

theorem read_size_append (n : Nat) (r : List Nat) :
    read_size (leBytes 8 n ++ r) = some (n % 2 ^ 64, r) := by
  have h8 : (leBytes 8 n).length = 8 := leBytes_length 8 n
  have := readExact_append (leBytes 8 n) r
  rw [h8] at this
  rw [read_size, this]
  show some (fromLeBytes (leBytes 8 n), r) = some (n % 2 ^ 64, r)
  rw [fromLeBytes_leBytes]
  norm_num

theorem read_vec_append (l r : List Nat) : read_vec l.length (l ++ r) = some (l, r) :=
  readExact_append l r

theorem walNext_encodeSet (k v : List Nat) (ts : Nat) (bs : List Nat)
    (hk : k.length < 2 ^ 64) (hv : v.length < 2 ^ 64) (hts : ts < 2 ^ 128) :
    walNext (encodeSet k v ts ++ bs) =
      some ({ key := k, value := some v, timestamp := ts, deleted := false }, bs) := by
  have e1 : encodeSet k v ts ++ bs =
      0 :: (leBytes 16 ts ++ (leBytes 8 k.length ++
        (k ++ (leBytes 8 v.length ++ (v ++ bs))))) := by
    simp [encodeSet, List.append_assoc]
  rw [e1]
  simp only [walNext, read_bool_cons, read_timestamp_append, read_size_append,
    Nat.mod_eq_of_lt hk, Nat.mod_eq_of_lt hv, Nat.mod_eq_of_lt hts,
    read_vec_append]
  rfl

theorem walNext_encodeDelete (k : List Nat) (ts : Nat) (bs : List Nat)
    (hk : k.length < 2 ^ 64) (hts : ts < 2 ^ 128) :
    walNext (encodeDelete k ts ++ bs) =
      some ({ key := k, value := none, timestamp := ts, deleted := true }, bs) := by
  have e1 : encodeDelete k ts ++ bs =
      1 :: (leBytes 16 ts ++ (leBytes 8 k.length ++ (k ++ bs))) := by
    simp [encodeDelete, List.append_assoc]
  rw [e1]
  simp only [walNext, read_bool_cons, read_timestamp_append, read_size_append,
    Nat.mod_eq_of_lt hk, Nat.mod_eq_of_lt hts, read_vec_append]
  rfl

/-- Record well-formedness: the invariant `deleted == true ⇔ value == None`
plus the machine-width bounds a record held in the Rust process always
satisfies (`usize` lengths, `u128` timestamp). -/
def wfRecord (r : WalEntry) : Prop :=
  (r.deleted = true ↔ r.value = none) ∧ r.key.length < 2 ^ 64 ∧
    (∀ v, r.value = some v → v.length < 2 ^ 64) ∧ r.timestamp < 2 ^ 128

/-- The bytes recovery re-appends for one replayed record. -/
def encodeRecord (r : WalEntry) : List Nat :=
  if r.deleted then encodeDelete r.key r.timestamp
  else encodeSet r.key (r.value.getD []) r.timestamp

/-- The full byte image of a record sequence (a segment's content). -/
def encodeList : List WalEntry → List Nat
  | [] => []
  | r :: rs => encodeRecord r ++ encodeList rs

theorem walNext_encodeRecord (r : WalEntry) (bs : List Nat) (hr : wfRecord r) :
    walNext (encodeRecord r ++ bs) = some (r, bs) := by
  obtain ⟨hiff, hk, hv, hts⟩ := hr
  cases hdel : r.deleted with
  | true =>
    have hval : r.value = none := hiff.mp hdel
    rw [encodeRecord, if_pos hdel, walNext_encodeDelete r.key r.timestamp bs hk hts]
    cases r with
    | mk key value timestamp deleted =>
      simp only at hdel hval
      subst hdel hval
      rfl
  | false =>
    have hval : r.value ≠ none := fun hc => by
      rw [hiff.mpr hc] at hdel
      exact Bool.noConfusion hdel
    cases hvv : r.value with
    | none => exact absurd hvv hval
    | some v =>
      rw [encodeRecord, if_neg (by rw [hdel]; exact Bool.noConfusion), hvv]
      have : (some v).getD [] = v := rfl
      rw [this, walNext_encodeSet r.key v r.timestamp bs hk (hv v hvv) hts]
      cases r with
      | mk key value timestamp deleted =>
        simp only at hdel hvv
        subst hdel hvv
        rfl

theorem walDecode_nil : walDecode [] = [] := rfl

theorem walDecode_encodeList (rs : List WalEntry) (bs : List Nat)
    (h : ∀ r ∈ rs, wfRecord r) :
    walDecode (encodeList rs ++ bs) = rs ++ walDecode bs := by
  induction rs with
  | nil => simp [encodeList]
  | cons r rest ih =>
    have hr : wfRecord r := h r (by simp)
    rw [encodeList, List.append_assoc, walDecode_eq,
      walNext_encodeRecord r (encodeList rest ++ bs) hr]
    show r :: walDecode (encodeList rest ++ bs) = r :: rest ++ walDecode bs
    rw [ih (fun x hx => h x (by simp [hx])), List.cons_append]

/-!  Truncation tolerance: decoding any strict prefix of a single encoded
record yields nothing, so a segment whose trailing record was cut short
replays exactly the preceding records (claim C5). -/

theorem readExact_take_append (l r : List Nat) (n k : Nat) (h : l.length = n) :
    readExact n ((l ++ r).take k) =
      if n ≤ k then some (l, r.take (k - n)) else none := by
  by_cases hnk : n ≤ k
  · rw [if_pos hnk]
    have e1 : k = l.length + (k - n) := by omega
    conv_lhs => rw [e1, List.take_append]
    rw [readExact, if_pos (by simp [h]), List.take_left' h, List.drop_left' h]
  · rw [if_neg hnk, readExact, if_neg]
    simp only [List.length_take, List.length_append]
    omega

theorem read_bool_take_append (b : Nat) (r : List Nat) (k : Nat) :
    read_bool ((b :: r).take k) =
      if 1 ≤ k then some (b != 0, r.take (k - 1)) else none := by
  have e1 : b :: r = [b] ++ r := rfl
  rw [e1, read_bool, readExact_take_append [b] r 1 k rfl]
  by_cases h : 1 ≤ k
  · rw [if_pos h, if_pos h]
    rfl
  · rw [if_neg h, if_neg h]

theorem read_timestamp_take_append (ts : Nat) (r : List Nat) (k : Nat) :
    read_timestamp ((leBytes 16 ts ++ r).take k) =
      if 16 ≤ k then some (ts % 2 ^ 128, r.take (k - 16)) else none := by
  rw [read_timestamp, readExact_take_append (leBytes 16 ts) r 16 k (leBytes_length 16 ts)]
  by_cases h : 16 ≤ k
  · rw [if_pos h, if_pos h]
    show some (fromLeBytes (leBytes 16 ts), r.take (k - 16)) = _
    rw [fromLeBytes_leBytes]
    norm_num
  · rw [if_neg h, if_neg h]

theorem read_size_take_append (n : Nat) (r : List Nat) (k : Nat) :
    read_size ((leBytes 8 n ++ r).take k) =
      if 8 ≤ k then some (n % 2 ^ 64, r.take (k - 8)) else none := by
  rw [read_size, readExact_take_append (leBytes 8 n) r 8 k (leBytes_length 8 n)]
  by_cases h : 8 ≤ k
  · rw [if_pos h, if_pos h]
    show some (fromLeBytes (leBytes 8 n), r.take (k - 8)) = _
    rw [fromLeBytes_leBytes]
    norm_num
  · rw [if_neg h, if_neg h]

theorem read_vec_take_append (l r : List Nat) (k : Nat) :
    read_vec l.length ((l ++ r).take k) =
      if l.length ≤ k then some (l, r.take (k - l.length)) else none :=
  readExact_take_append l r l.length k rfl

theorem read_vec_take_self (l : List Nat) (j : Nat) (hj : j < l.length) :
    read_vec l.length (l.take j) = none := by
  rw [read_vec, readExact, if_neg]
  simp only [List.length_take]
  omega

theorem encodeSet_length (k v : List Nat) (ts : Nat) :
    (encodeSet k v ts).length = 33 + k.length + v.length := by
  simp [encodeSet, leBytes_length]
  omega

theorem encodeDelete_length (k : List Nat) (ts : Nat) :
    (encodeDelete k ts).length = 25 + k.length := by
  simp [encodeDelete, leBytes_length]
  omega

theorem walNext_take_encodeSet (k v : List Nat) (ts : Nat)
    (hk : k.length < 2 ^ 64) (hv : v.length < 2 ^ 64) (m : Nat)
    (hm : m < 33 + k.length + v.length) :
    walNext ((encodeSet k v ts).take m) = none := by
  have e1 : encodeSet k v ts =
      0 :: (leBytes 16 ts ++ (leBytes 8 k.length ++
        (k ++ (leBytes 8 v.length ++ v)))) := by
    simp [encodeSet, List.append_assoc]
  rw [e1]
  by_cases h1 : 1 ≤ m
  · have hb : read_bool ((0 :: (leBytes 16 ts ++ (leBytes 8 k.length ++
        (k ++ (leBytes 8 v.length ++ v))))).take m) =
        some (0 != 0, (leBytes 16 ts ++ (leBytes 8 k.length ++
          (k ++ (leBytes 8 v.length ++ v)))).take (m - 1)) := by
      rw [read_bool_take_append, if_pos h1]
    by_cases h2 : 16 ≤ m - 1
    · have ht : read_timestamp ((leBytes 16 ts ++ (leBytes 8 k.length ++
          (k ++ (leBytes 8 v.length ++ v)))).take (m - 1)) =
          some (ts % 2 ^ 128, (leBytes 8 k.length ++
            (k ++ (leBytes 8 v.length ++ v))).take (m - 1 - 16)) := by
        rw [read_timestamp_take_append, if_pos h2]
      by_cases h3 : 8 ≤ m - 1 - 16
      · have hs : read_size ((leBytes 8 k.length ++
            (k ++ (leBytes 8 v.length ++ v))).take (m - 1 - 16)) =
            some (k.length % 2 ^ 64, (k ++ (leBytes 8 v.length ++ v)).take
              (m - 1 - 16 - 8)) := by
          rw [read_size_take_append, if_pos h3]
        rw [Nat.mod_eq_of_lt hk] at hs
        by_cases h4 : k.length ≤ m - 1 - 16 - 8
        · have hkr : read_vec k.length ((k ++ (leBytes 8 v.length ++ v)).take
              (m - 1 - 16 - 8)) =
              some (k, (leBytes 8 v.length ++ v).take
                (m - 1 - 16 - 8 - k.length)) := by
            rw [read_vec_take_append, if_pos h4]
          by_cases h5 : 8 ≤ m - 1 - 16 - 8 - k.length
          · have hvs : read_size ((leBytes 8 v.length ++ v).take
                (m - 1 - 16 - 8 - k.length)) =
                some (v.length % 2 ^ 64, v.take
                  (m - 1 - 16 - 8 - k.length - 8)) := by
              rw [read_size_take_append, if_pos h5]
            rw [Nat.mod_eq_of_lt hv] at hvs
            have hvr : read_vec v.length (v.take
                (m - 1 - 16 - 8 - k.length - 8)) = none :=
              read_vec_take_self v _ (by omega)
            simp only [walNext, hb, ht, hs, hkr, hvs, hvr]
            rfl
          · have hvs : read_size ((leBytes 8 v.length ++ v).take
                (m - 1 - 16 - 8 - k.length)) = none := by
              rw [read_size_take_append, if_neg h5]
            simp only [walNext, hb, ht, hs, hkr, hvs]
            rfl
        · have hkr : read_vec k.length ((k ++ (leBytes 8 v.length ++ v)).take
              (m - 1 - 16 - 8)) = none := by
            rw [read_vec_take_append, if_neg h4]
          simp only [walNext, hb, ht, hs, hkr]
      · have hs : read_size ((leBytes 8 k.length ++
            (k ++ (leBytes 8 v.length ++ v))).take (m - 1 - 16)) = none := by
          rw [read_size_take_append, if_neg h3]
        simp only [walNext, hb, ht, hs]
    · have ht : read_timestamp ((leBytes 16 ts ++ (leBytes 8 k.length ++
          (k ++ (leBytes 8 v.length ++ v)))).take (m - 1)) = none := by
        rw [read_timestamp_take_append, if_neg h2]
      simp only [walNext, hb, ht]
  · have hb : read_bool ((0 :: (leBytes 16 ts ++ (leBytes 8 k.length ++
        (k ++ (leBytes 8 v.length ++ v))))).take m) = none := by
      rw [read_bool_take_append, if_neg h1]
    simp only [walNext, hb]

theorem walNext_take_encodeDelete (k : List Nat) (ts : Nat)
    (hk : k.length < 2 ^ 64) (m : Nat) (hm : m < 25 + k.length) :
    walNext ((encodeDelete k ts).take m) = none := by
  have e1 : encodeDelete k ts =
      1 :: (leBytes 16 ts ++ (leBytes 8 k.length ++ k)) := by
    simp [encodeDelete, List.append_assoc]
  rw [e1]
  by_cases h1 : 1 ≤ m
  · have hb : read_bool ((1 :: (leBytes 16 ts ++
        (leBytes 8 k.length ++ k))).take m) =
        some (1 != 0, (leBytes 16 ts ++
          (leBytes 8 k.length ++ k)).take (m - 1)) := by
      rw [read_bool_take_append, if_pos h1]
    by_cases h2 : 16 ≤ m - 1
    · have ht : read_timestamp ((leBytes 16 ts ++
          (leBytes 8 k.length ++ k)).take (m - 1)) =
          some (ts % 2 ^ 128, (leBytes 8 k.length ++ k).take (m - 1 - 16)) := by
        rw [read_timestamp_take_append, if_pos h2]
      by_cases h3 : 8 ≤ m - 1 - 16
      · have hs : read_size ((leBytes 8 k.length ++ k).take (m - 1 - 16)) =
            some (k.length % 2 ^ 64, k.take (m - 1 - 16 - 8)) := by
          rw [read_size_take_append, if_pos h3]
        rw [Nat.mod_eq_of_lt hk] at hs
        have hkr : read_vec k.length (k.take (m - 1 - 16 - 8)) = none :=
          read_vec_take_self k _ (by omega)
        simp only [walNext, hb, ht, hs, hkr]
      · have hs : read_size ((leBytes 8 k.length ++ k).take (m - 1 - 16)) =
            none := by
          rw [read_size_take_append, if_neg h3]
        simp only [walNext, hb, ht, hs]
    · have ht : read_timestamp ((leBytes 16 ts ++
          (leBytes 8 k.length ++ k)).take (m - 1)) = none := by
        rw [read_timestamp_take_append, if_neg h2]
      simp only [walNext, hb, ht]
  · have hb : read_bool ((1 :: (leBytes 16 ts ++
        (leBytes 8 k.length ++ k))).take m) = none := by
      rw [read_bool_take_append, if_neg h1]
    simp only [walNext, hb]

theorem walNext_take_encodeRecord (r : WalEntry) (hr : wfRecord r) (m : Nat)
    (hm : m < (encodeRecord r).length) :
    walNext ((encodeRecord r).take m) = none := by
  obtain ⟨hiff, hk, hv, hts⟩ := hr
  cases hdel : r.deleted with
  | true =>
    rw [encodeRecord, if_pos hdel] at hm ⊢
    rw [encodeDelete_length] at hm
    exact walNext_take_encodeDelete r.key r.timestamp hk m hm
  | false =>
    have hne : ¬r.deleted = true := by rw [hdel]; exact Bool.noConfusion
    rw [encodeRecord, if_neg hne] at hm ⊢
    cases hvv : r.value with
    | none =>
      exact absurd (hiff.mpr hvv) hne
    | some v =>
      rw [encodeSet_length] at hm
      rw [hvv] at hm
      exact walNext_take_encodeSet r.key ((some v).getD []) r.timestamp hk
        (hv v hvv) m hm

theorem walDecode_take_encodeRecord (r : WalEntry) (hr : wfRecord r) (m : Nat)
    (hm : m < (encodeRecord r).length) :
    walDecode ((encodeRecord r).take m) = [] := by
  rw [walDecode_eq, walNext_take_encodeRecord r hr m hm]

theorem encodeList_append (rs1 rs2 : List WalEntry) :
    encodeList (rs1 ++ rs2) = encodeList rs1 ++ encodeList rs2 := by
  induction rs1 with
  | nil => rfl
  | cons r rest ih => rw [List.cons_append, encodeList, ih, encodeList, List.append_assoc]

/-!  Every record a reader produces satisfies the structural invariant
`deleted ⇔ no value`, and on a genuine byte stream (all values < 256) also
the machine-width bounds of `wfRecord`. -/

/-- A genuine byte stream: every element is a `u8` value. -/
def byteOk (bs : List Nat) : Prop := ∀ x ∈ bs, x < 256

instance : DecidablePred byteOk := fun bs =>
  inferInstanceAs (Decidable (∀ x ∈ bs, x < 256))

theorem fromLeBytes_lt (l : List Nat) (h : ∀ x ∈ l, x < 256) :
    fromLeBytes l < 256 ^ l.length := by
  induction l with
  | nil => simp [fromLeBytes]
  | cons b t ih =>
    have hb : b < 256 := h b (by simp)
    have ht : fromLeBytes t < 256 ^ t.length := ih (fun x hx => h x (by simp [hx]))
    have e1 : fromLeBytes (b :: t) = b + 256 * fromLeBytes t := rfl
    rw [e1, List.length_cons, pow_succ, mul_comm (256 ^ t.length) 256]
    calc b + 256 * fromLeBytes t < 256 * (fromLeBytes t + 1) := by omega
    _ ≤ 256 * 256 ^ t.length := by
        exact Nat.mul_le_mul_left 256 (by omega)

theorem readExact_parts {n : Nat} {bs v rest : List Nat} (hb : byteOk bs)
    (h : readExact n bs = some (v, rest)) :
    v.length = n ∧ byteOk v ∧ byteOk rest := by
  obtain ⟨hv, hr, hn⟩ := readExact_some h
  subst hv hr
  refine ⟨by simp [List.length_take]; omega, ?_, ?_⟩
  · exact fun x hx => hb x (List.take_subset n bs hx)
  · exact fun x hx => hb x (List.drop_subset n bs hx)

theorem read_bool_parts {bs : List Nat} {d : Bool} {rest : List Nat} (hb : byteOk bs)
    (h : read_bool bs = some (d, rest)) : byteOk rest := by
  rw [read_bool] at h
  cases hr : readExact 1 bs with
  | none => rw [hr] at h; exact Option.noConfusion h
  | some pr =>
    obtain ⟨b, r⟩ := pr
    rw [hr] at h
    obtain ⟨-, -, hrb⟩ := readExact_parts hb hr
    injection h with h2
    injection h2 with ha hbr
    exact hbr ▸ hrb

theorem read_timestamp_parts {bs : List Nat} {ts : Nat} {rest : List Nat} (hb : byteOk bs)
    (h : read_timestamp bs = some (ts, rest)) : ts < 2 ^ 128 ∧ byteOk rest := by
  rw [read_timestamp] at h
  cases hr : readExact 16 bs with
  | none => rw [hr] at h; exact Option.noConfusion h
  | some pr =>
    obtain ⟨b, r⟩ := pr
    rw [hr] at h
    obtain ⟨hlen, hbv, hrb⟩ := readExact_parts hb hr
    injection h with h2
    injection h2 with ha hbr
    have := fromLeBytes_lt b hbv
    rw [hlen] at this
    constructor
    · rw [← ha]
      calc fromLeBytes b < 256 ^ 16 := this
      _ = 2 ^ 128 := by norm_num
    · exact hbr ▸ hrb

theorem read_size_parts {bs : List Nat} {n : Nat} {rest : List Nat} (hb : byteOk bs)
    (h : read_size bs = some (n, rest)) : n < 2 ^ 64 ∧ byteOk rest := by
  rw [read_size] at h
  cases hr : readExact 8 bs with
  | none => rw [hr] at h; exact Option.noConfusion h
  | some pr =>
    obtain ⟨b, r⟩ := pr
    rw [hr] at h
    obtain ⟨hlen, hbv, hrb⟩ := readExact_parts hb hr
    injection h with h2
    injection h2 with ha hbr
    have := fromLeBytes_lt b hbv
    rw [hlen] at this
    constructor
    · rw [← ha]
      calc fromLeBytes b < 256 ^ 8 := this
      _ = 2 ^ 64 := by norm_num
    · exact hbr ▸ hrb

theorem read_vec_parts {n : Nat} {bs v rest : List Nat} (hb : byteOk bs)
    (h : read_vec n bs = some (v, rest)) :
    v.length = n ∧ byteOk v ∧ byteOk rest :=
  readExact_parts hb (h : readExact n bs = some (v, rest))

theorem walNext_shape {bs : List Nat} {e : WalEntry} {rest : List Nat}
    (h : walNext bs = some (e, rest)) : e.deleted = true ↔ e.value = none := by
  rw [walNext] at h
  cases h1 : read_bool bs with
  | none => simp [h1] at h
  | some p1 =>
    obtain ⟨deleted, bs1⟩ := p1
    simp only [h1] at h
    cases h2 : read_timestamp bs1 with
    | none => simp [h2] at h
    | some p2 =>
      obtain ⟨ts, bs2⟩ := p2
      simp only [h2] at h
      cases h3 : read_size bs2 with
      | none => simp [h3] at h
      | some p3 =>
        obtain ⟨ksz, bs3⟩ := p3
        simp only [h3] at h
        cases h4 : read_vec ksz bs3 with
        | none => simp [h4] at h
        | some p4 =>
          obtain ⟨key, bs4⟩ := p4
          simp only [h4] at h
          by_cases hdel : deleted = true
          · rw [if_pos hdel] at h
            injection h with h2
            injection h2 with ha hb
            rw [← ha]
            simp [hdel]
          · rw [if_neg hdel] at h
            cases h5 : read_size bs4 with
            | none => simp [h5] at h
            | some p5 =>
              obtain ⟨vsz, bs5⟩ := p5
              simp only [h5] at h
              cases h6 : read_vec vsz bs5 with
              | none => simp [h6] at h
              | some p6 =>
                obtain ⟨value, bs6⟩ := p6
                simp only [h6] at h
                injection h with h2
                injection h2 with ha hb
                rw [← ha]
                simp [hdel]

theorem walNext_wf {bs : List Nat} {e : WalEntry} {rest : List Nat} (hb : byteOk bs)
    (h : walNext bs = some (e, rest)) : wfRecord e ∧ byteOk rest := by
  have hshape := walNext_shape h
  rw [walNext] at h
  cases h1 : read_bool bs with
  | none => simp [h1] at h
  | some p1 =>
    obtain ⟨deleted, bs1⟩ := p1
    simp only [h1] at h
    have hb1 : byteOk bs1 := read_bool_parts hb h1
    cases h2 : read_timestamp bs1 with
    | none => simp [h2] at h
    | some p2 =>
      obtain ⟨ts, bs2⟩ := p2
      simp only [h2] at h
      obtain ⟨hts, hb2⟩ := read_timestamp_parts hb1 h2
      cases h3 : read_size bs2 with
      | none => simp [h3] at h
      | some p3 =>
        obtain ⟨ksz, bs3⟩ := p3
        simp only [h3] at h
        obtain ⟨hksz, hb3⟩ := read_size_parts hb2 h3
        cases h4 : read_vec ksz bs3 with
        | none => simp [h4] at h
        | some p4 =>
          obtain ⟨key, bs4⟩ := p4
          simp only [h4] at h
          obtain ⟨hklen, hbk, hb4⟩ := read_vec_parts hb3 h4
          by_cases hdel : deleted = true
          · rw [if_pos hdel] at h
            injection h with h2
            injection h2 with ha hb'
            refine ⟨?_, hb' ▸ hb4⟩
            rw [← ha]
            refine ⟨by simp [hdel], by simpa [hklen] using hksz, ?_, by simpa using hts⟩
            intro v hv
            exact Option.noConfusion hv
          · rw [if_neg hdel] at h
            cases h5 : read_size bs4 with
            | none => simp [h5] at h
            | some p5 =>
              obtain ⟨vsz, bs5⟩ := p5
              simp only [h5] at h
              obtain ⟨hvsz, hb5⟩ := read_size_parts hb4 h5
              cases h6 : read_vec vsz bs5 with
              | none => simp [h6] at h
              | some p6 =>
                obtain ⟨value, bs6⟩ := p6
                simp only [h6] at h
                obtain ⟨hvlen, hbv, hb6⟩ := read_vec_parts hb5 h6
                injection h with h2
                injection h2 with ha hb'
                refine ⟨?_, hb' ▸ hb6⟩
                rw [← ha]
                refine ⟨by simp [hdel], by simpa [hklen] using hksz, ?_, by simpa using hts⟩
                intro v hv
                injection hv with hv2
                rw [← hv2, hvlen]
                exact hvsz

theorem walDecodeFuel_shape (fuel : Nat) (bs : List Nat) :
    ∀ r ∈ walDecodeFuel fuel bs, r.deleted = true ↔ r.value = none := by
  induction fuel generalizing bs with
  | zero => simp [walDecodeFuel]
  | succ fuel ih =>
    simp only [walDecodeFuel]
    cases hn : walNext bs with
    | none => simp
    | some p =>
      obtain ⟨e, rest⟩ := p
      intro r hr
      rcases List.mem_cons.mp hr with hr | hr
      · exact hr ▸ walNext_shape hn
      · exact ih rest r hr

theorem walDecode_shape (bs : List Nat) :
    ∀ r ∈ walDecode bs, r.deleted = true ↔ r.value = none :=
  walDecodeFuel_shape bs.length bs

theorem walDecodeFuel_wf (fuel : Nat) (bs : List Nat) (hb : byteOk bs) :
    ∀ r ∈ walDecodeFuel fuel bs, wfRecord r := by
  induction fuel generalizing bs with
  | zero => simp [walDecodeFuel]
  | succ fuel ih =>
    simp only [walDecodeFuel]
    cases hn : walNext bs with
    | none => simp
    | some p =>
      obtain ⟨e, rest⟩ := p
      intro r hr
      obtain ⟨hwf, hbrest⟩ := walNext_wf hb hn
      rcases List.mem_cons.mp hr with hr | hr
      · exact hr ▸ hwf
      · exact ih rest hbrest r hr

theorem walDecode_wf (bs : List Nat) (hb : byteOk bs) :
    ∀ r ∈ walDecode bs, wfRecord r :=
  walDecodeFuel_wf bs.length bs hb

/-!  Recovery protocol, `Wal::load_from_dir` (src/wal.rs lines 96-128).

The file system is abstracted: the directory listing (the external helper
`utils::get_files_by_ext`, which guarantees no order) is the input list of
`SegFile`s.  Per file, `openOk` models whether `Wal::from_path` (line 103)
succeeds - its failure is swallowed by the `if let Ok`; `readOk` models
whether `WalIterator::new` behind `into_iter` (src/wal.rs line 41)
succeeds - its failure panics through `.unwrap()`.  `flushOk` models
`new_wal.flush()` (line 124, `.unwrap()` panics on failure) and `removeOk`
models `remove_file` per path (line 125, `.unwrap()` panics on failure).
Creation of the fresh segment (`Self::new(dir)?`, line 101) and the
buffered record writes (lines 107-118, whose failures propagate with `?`)
are taken to succeed: the claims under verification only concern the
open/flush/delete failure points.  A panic or propagated error is
`LoadOutcome.panic`; success carries the new segment's bytes, the rebuilt
MemTable and the list of deleted segment paths. -/

structure SegFile where
  name : List Nat
  openOk : Bool
  readOk : Bool
  content : List Nat
deriving DecidableEq

/-- Byte-lexicographic `≤` on paths, Rust's derived `Ord` used by
`wal_files.sort()` (src/wal.rs line 98). -/
def nameLe : List Nat → List Nat → Bool
  | [], _ => true
  | _ :: _, [] => false
  | a :: as, b :: bs => if a < b then true else if b < a then false else nameLe as bs

theorem nameLe_trans (a b c : List Nat) (h1 : nameLe a b) (h2 : nameLe b c) :
    nameLe a c := by
  induction a generalizing b c with
  | nil => simp [nameLe]
  | cons x xs ih =>
    cases b with
    | nil => simp [nameLe] at h1
    | cons y ys =>
      cases c with
      | nil => simp [nameLe] at h2
      | cons z zs =>
        simp only [nameLe] at h1 h2 ⊢
        rcases Nat.lt_trichotomy x y with hxy | hxy | hxy
        · rcases Nat.lt_trichotomy y z with hyz | hyz | hyz
          · simp [Nat.lt_trans hxy hyz]
          · subst hyz; simp [hxy]
          · simp [hyz, Nat.not_lt.mpr (Nat.le_of_lt hyz)] at h2
        · subst hxy
          rcases Nat.lt_trichotomy x z with hyz | hyz | hyz
          · simp [hyz]
          · subst hyz
            simp only [Nat.lt_irrefl, if_false] at h1 h2 ⊢
            exact ih ys zs h1 h2
          · simp [hyz, Nat.not_lt.mpr (Nat.le_of_lt hyz)] at h2
        · simp [hxy, Nat.not_lt.mpr (Nat.le_of_lt hxy)] at h1

theorem nameLe_total (a b : List Nat) : nameLe a b || nameLe b a := by
  induction a generalizing b with
  | nil => simp [nameLe]
  | cons x xs ih =>
    cases b with
    | nil => simp [nameLe]
    | cons y ys =>
      simp only [nameLe]
      rcases Nat.lt_trichotomy x y with hxy | hxy | hxy
      · simp [hxy, Nat.not_lt.mpr (Nat.le_of_lt hxy)]
      · subst hxy
        simp only [Nat.lt_irrefl, if_false]
        exact ih ys
      · simp [hxy, Nat.not_lt.mpr (Nat.le_of_lt hxy)]

/-- `wal_files.sort()` (src/wal.rs line 98): a stable sort by path. -/
def sortByName (files : List SegFile) : List SegFile :=
  files.mergeSort (fun a b => nameLe a.name b.name)

/-- Result of `load_from_dir`: `panic` for an `unwrap` abort, `ok` with the
consolidated segment bytes, the MemTable and the removed paths. -/
inductive LoadOutcome where
  | ok (segment : List Nat) (memTable : MemTable) (removed : List (List Nat))
  | panic
deriving DecidableEq

/-- Replay one decoded record (src/wal.rs lines 105-119): apply it to the
new MemTable and append its re-encoding to the new segment.  A non-deleted
record without a value would hit `entry.value.unwrap()` (line 111), a
panic, modelled as `none` (the reader never produces such a record). -/
def replayRecord (st : MemTable × List Nat) (e : WalEntry) :
    Option (MemTable × List Nat) :=
  if e.deleted then
    some (st.1.delete e.key e.timestamp, st.2 ++ encodeDelete e.key e.timestamp)
  else
    match e.value with
    | some v => some (st.1.set e.key v e.timestamp, st.2 ++ encodeSet e.key v e.timestamp)
    | none => none

/-- Replay a segment's record sequence (the `for entry in wal.into_iter()`
loop, src/wal.rs lines 104-120). -/
def replayRecords : List WalEntry → MemTable × List Nat → Option (MemTable × List Nat)
  | [], st => some st
  | e :: rest, st =>
    match replayRecord st e with
    | none => none
    | some st2 => replayRecords rest st2

/-- Replay the sorted segment list (src/wal.rs lines 102-122): a failing
`from_path` is skipped by `if let Ok`; a failing read-open inside
`into_iter` panics (`none`). -/
def replayFiles : List SegFile → MemTable × List Nat → Option (MemTable × List Nat)
  | [], st => some st
  | f :: rest, st =>
    if f.openOk then
      if f.readOk then
        match replayRecords (walDecode f.content) st with
        | none => none
        | some st2 => replayFiles rest st2
      else none
    else replayFiles rest st

/-- `Wal::load_from_dir` (src/wal.rs lines 96-128): list and sort the
segments, replay them into a fresh MemTable and a fresh segment, flush
(`unwrap`), then delete every listed old segment file (`unwrap` each). -/
def loadFromDir (files : List SegFile) (flushOk : Bool)
    (removeOk : List Nat → Bool) : LoadOutcome :=
  let sorted := sortByName files
  match replayFiles sorted (MemTable.new, []) with
  | none => LoadOutcome.panic
  | some (mt, seg) =>
    if flushOk then
      if (sorted.map SegFile.name).all removeOk then
        LoadOutcome.ok seg mt (sorted.map SegFile.name)
      else LoadOutcome.panic
    else LoadOutcome.panic

/-- The MemTable operation a replayed record performs. -/
def recOp (e : WalEntry) : Op :=
  if e.deleted then Op.delOp e.key e.timestamp
  else Op.setOp e.key (e.value.getD []) e.timestamp

/-- The MemTable entry a replayed record leaves for its key. -/
def recEntry (r : WalEntry) : MemTableEntry :=
  { key := r.key, value := r.value, timestamp := r.timestamp, deleted := r.deleted }

/-- The records recovery replays: each successfully opened segment's decoded
sequence, in file order; segments whose open failed contribute nothing. -/
def openedRecs : List SegFile → List WalEntry
  | [] => []
  | f :: rest => (if f.openOk then walDecode f.content else []) ++ openedRecs rest

/-- The last replayed record touching key `k`. -/
def lastRecordFor (recs : List WalEntry) (k : List Nat) : Option WalEntry :=
  (recs.filter (fun r => decide (r.key = k))).getLast?

theorem recOp_key (e : WalEntry) : (recOp e).key = e.key := by
  rw [recOp]
  by_cases h : e.deleted = true
  · rw [if_pos h]; rfl
  · rw [if_neg h]; rfl

theorem replayRecord_eq (st : MemTable × List Nat) (e : WalEntry)
    (hsh : e.deleted = true ↔ e.value = none) :
    replayRecord st e = some (applyOp st.1 (recOp e), st.2 ++ encodeRecord e) := by
  by_cases h : e.deleted = true
  · rw [replayRecord, if_pos h, recOp, if_pos h, encodeRecord, if_pos h]
    rfl
  · rw [replayRecord, if_neg h, recOp, if_neg h, encodeRecord, if_neg h]
    cases hv : e.value with
    | none => exact absurd (hsh.mpr hv) h
    | some v => rfl

theorem replayRecords_eq (recs : List WalEntry) (st : MemTable × List Nat)
    (hsh : ∀ r ∈ recs, r.deleted = true ↔ r.value = none) :
    replayRecords recs st =
      some ((recs.map recOp).foldl applyOp st.1, st.2 ++ encodeList recs) := by
  induction recs generalizing st with
  | nil => simp [replayRecords, encodeList]
  | cons e rest ih =>
    rw [replayRecords, replayRecord_eq st e (hsh e (by simp))]
    show replayRecords rest (applyOp st.1 (recOp e), st.2 ++ encodeRecord e) = _
    rw [ih _ (fun r hr => hsh r (by simp [hr]))]
    simp [encodeList, List.append_assoc]

theorem replayFiles_eq (files : List SegFile) (st : MemTable × List Nat)
    (h : ∀ f ∈ files, f.openOk = true → f.readOk = true) :
    replayFiles files st =
      some (((openedRecs files).map recOp).foldl applyOp st.1,
        st.2 ++ encodeList (openedRecs files)) := by
  induction files generalizing st with
  | nil => simp [replayFiles, openedRecs, encodeList]
  | cons f rest ih =>
    rw [replayFiles]
    by_cases hopen : f.openOk = true
    · rw [if_pos hopen, if_pos (h f (by simp) hopen)]
      rw [replayRecords_eq (walDecode f.content) st (walDecode_shape f.content)]
      show replayFiles rest
        ((walDecode f.content).map recOp |>.foldl applyOp st.1,
          st.2 ++ encodeList (walDecode f.content)) = _
      rw [ih _ (fun g hg => h g (by simp [hg]))]
      rw [openedRecs, if_pos hopen, List.map_append, List.foldl_append,
        encodeList_append, List.append_assoc]
    · rw [if_neg hopen]
      rw [ih _ (fun g hg => h g (by simp [hg]))]
      rw [openedRecs, if_neg hopen, List.nil_append]

theorem loadFromDir_eq (files : List SegFile) (removeOk : List Nat → Bool)
    (hor : ∀ f ∈ files, f.openOk = true → f.readOk = true)
    (hrm : ∀ f ∈ files, removeOk f.name = true) :
    loadFromDir files true removeOk =
      LoadOutcome.ok (encodeList (openedRecs (sortByName files)))
        (applyOps ((openedRecs (sortByName files)).map recOp))
        ((sortByName files).map SegFile.name) := by
  rw [loadFromDir]
  have hor2 : ∀ f ∈ sortByName files, f.openOk = true → f.readOk = true :=
    fun f hf => hor f (List.mem_mergeSort.mp hf)
  rw [replayFiles_eq (sortByName files) (MemTable.new, []) hor2]
  have hall : ((sortByName files).map SegFile.name).all removeOk = true := by
    rw [List.all_eq_true]
    intro x hx
    rcases List.mem_map.mp hx with ⟨f, hf, hfx⟩
    exact hfx ▸ hrm f (List.mem_mergeSort.mp hf)
  simp only [hall, if_true]
  rw [applyOps]
  rfl

theorem mem_openedRecs {r : WalEntry} {files : List SegFile}
    (h : r ∈ openedRecs files) : ∃ f ∈ files, r ∈ walDecode f.content := by
  induction files with
  | nil => simp [openedRecs] at h
  | cons f rest ih =>
    rw [openedRecs] at h
    rcases List.mem_append.mp h with h | h
    · by_cases hopen : f.openOk = true
      · rw [if_pos hopen] at h
        exact ⟨f, by simp, h⟩
      · rw [if_neg hopen] at h
        simp at h
    · rcases ih h with ⟨g, hg, hgr⟩
      exact ⟨g, by simp [hg], hgr⟩

theorem get_applyRecs (recs : List WalEntry) (k : List Nat)
    (hsh : ∀ r ∈ recs, r.deleted = true ↔ r.value = none) :
    (applyOps (recs.map recOp)).get k = (lastRecordFor recs k).map recEntry := by
  rw [applyOps_get, lastRecordFor, lastOp]
  have hfil : (recs.map recOp).filter (fun o => decide (o.key = k)) =
      (recs.filter (fun r => decide (r.key = k))).map recOp := by
    rw [List.filter_map]
    have hp : ((fun o => decide (o.key = k)) ∘ recOp) =
        (fun r => decide (r.key = k)) := by
      funext r
      simp [Function.comp, recOp_key]
    rw [hp]
  rw [hfil, List.getLast?_map]
  cases hlast : (recs.filter (fun r => decide (r.key = k))).getLast? with
  | none => rfl
  | some r =>
    have hr : r ∈ recs := by
      have := List.mem_of_getLast?_eq_some hlast
      exact List.mem_of_mem_filter this
    have hshr := hsh r hr
    show some ((recOp r).entry) = some (recEntry r)
    rw [recOp]
    by_cases hdel : r.deleted = true
    · rw [if_pos hdel]
      show some ⟨r.key, none, r.timestamp, true⟩ = some (recEntry r)
      rw [recEntry, hshr.mp hdel, hdel]
    · rw [if_neg hdel]
      cases hv : r.value with
      | none => exact absurd (hshr.mpr hv) hdel
      | some v =>
        show some ⟨r.key, some v, r.timestamp, false⟩ = some (recEntry r)
        rw [recEntry, hv]
        have hdf : r.deleted = false := by
          cases hd : r.deleted with
          | false => rfl
          | true => exact absurd hd hdel
        rw [hdf]

/-!  Claim theorems. -/

/-- C1: the size-accounting claim fails on the code.  From an empty
MemTable, `set("a","xx",0)` then `set("a","x",1)` leaves `size = 20`:
the overwrite branch replaces the entry before reading the old value, so
it always adjusts by zero, while the spec formula
Σ (key.len + value.len + 17) over the final entries gives 19.  `delete`
on the populated key likewise leaves `size` at 20 instead of subtracting
the stored value's length. -/
theorem c1_size_divergence :
    ((MemTable.new.set [97] [120, 120] 0).set [97] [120] 1).size = 20 ∧
    List.foldl (fun acc e => acc + (e.key.length + (e.value.getD []).length + 17)) 0
      ((MemTable.new.set [97] [120, 120] 0).set [97] [120] 1).entries = 19 ∧
    ((MemTable.new.set [97] [120, 120] 0).delete [97] 1).size = 20 := by
  decide

/-- C2 (amended): during `load_from_dir`, a flush failure and a deletion
failure abort (`unwrap` panics), and recovery never reports success unless
every listed segment's deletion succeeded; but a failure to open an old
segment in `Wal::from_path` is silently swallowed by the `if let Ok`:
recovery still succeeds, the segment's records are skipped, and its file
is nevertheless deleted. -/
theorem c2_error_handling :
    (∀ (files : List SegFile) (removeOk : List Nat → Bool),
      loadFromDir files false removeOk = LoadOutcome.panic) ∧
    (∀ (files : List SegFile) (removeOk : List Nat → Bool) seg mt names,
      loadFromDir files true removeOk = LoadOutcome.ok seg mt names →
      ∀ f ∈ files, removeOk f.name = true) ∧
    (∀ (files : List SegFile) (removeOk : List Nat → Bool) (f : SegFile),
      f ∈ files → f.openOk = false →
      (∀ g ∈ files, g.openOk = true → g.readOk = true) →
      (∀ g ∈ files, removeOk g.name = true) →
      ∃ seg mt names,
        loadFromDir files true removeOk = LoadOutcome.ok seg mt names ∧
        f.name ∈ names) := by
  refine ⟨?_, ?_, ?_⟩
  · intro files removeOk
    rw [loadFromDir]
    cases h : replayFiles (sortByName files) (MemTable.new, []) with
    | none => rfl
    | some st =>
      obtain ⟨mt, seg⟩ := st
      rfl
  · intro files removeOk seg mt names h f hf
    rw [loadFromDir] at h
    cases hr : replayFiles (sortByName files) (MemTable.new, []) with
    | none => simp [hr] at h
    | some st =>
      obtain ⟨mt2, seg2⟩ := st
      simp only [hr] at h
      rw [if_pos trivial] at h
      by_cases hall : ((sortByName files).map SegFile.name).all removeOk = true
      · have hmem : f.name ∈ (sortByName files).map SegFile.name :=
          List.mem_map.mpr ⟨f, List.mem_mergeSort.mpr hf, rfl⟩
        exact List.all_eq_true.mp hall f.name hmem
      · rw [if_neg hall] at h
        exact absurd h (by simp)
  · intro files removeOk f hf hopen hread hrm
    refine ⟨_, _, _, loadFromDir_eq files removeOk hread hrm, ?_⟩
    exact List.mem_map.mpr ⟨f, List.mem_mergeSort.mpr hf, rfl⟩

/-- C2 witness: a directory with one segment whose open fails; recovery
succeeds and the unopened segment's path is in the deleted list. -/
theorem c2_error_handling_witness :
    ∃ seg mt names,
      loadFromDir [{ name := [49], openOk := false, readOk := true, content := [] }]
        true (fun _ => true) = LoadOutcome.ok seg mt names ∧
      [49] ∈ names :=
  c2_error_handling.2.2
    [{ name := [49], openOk := false, readOk := true, content := [] }]
    (fun _ => true)
    { name := [49], openOk := false, readOk := true, content := [] }
    (by simp) rfl
    (by intro g hg ho
        rw [List.mem_singleton] at hg
        subst hg
        exact absurd ho (by simp))
    (fun g hg => rfl)

/-- C2 counterexample: the claim as stated is false.  With one segment
whose `from_path` open fails, `load_from_dir` neither errors nor aborts:
it returns success, having skipped the segment during replay and still
deleted its file. -/
theorem c2_counterexample :
    ¬ (∀ (files : List SegFile) (removeOk : List Nat → Bool) seg mt names,
        loadFromDir files true removeOk = LoadOutcome.ok seg mt names →
        ∀ f ∈ files, f.openOk = true) := by
  intro hclaim
  have heval : loadFromDir
      [{ name := [49], openOk := false, readOk := true, content := [] }]
      true (fun _ => true) =
      LoadOutcome.ok [] MemTable.new [[49]] := by
    rw [loadFromDir, sortByName, List.mergeSort_singleton]
    rfl
  have := hclaim _ _ _ _ _ heval
    { name := [49], openOk := false, readOk := true, content := [] } (by simp)
  simp at this

/-- C3: recovery sorts the listed paths byte-lexicographically (the result
is `nameLe`-sorted and a permutation of the input), replays every record
of every segment in that order, and the resulting MemTable maps each key
to the entry of the last record for that key in the concatenated,
sort-ordered stream. -/
theorem c3_replay_order (files : List SegFile) (removeOk : List Nat → Bool)
    (h : ∀ f ∈ files, f.openOk = true ∧ f.readOk = true)
    (hrm : ∀ f ∈ files, removeOk f.name = true) :
    ∃ seg mt,
      loadFromDir files true removeOk =
        LoadOutcome.ok seg mt ((sortByName files).map SegFile.name) ∧
      (sortByName files).Pairwise (fun a b => nameLe a.name b.name = true) ∧
      (sortByName files).Perm files ∧
      ∀ k, mt.get k =
        (lastRecordFor (openedRecs (sortByName files)) k).map recEntry := by
  refine ⟨_, _, loadFromDir_eq files removeOk (fun f hf ho => (h f hf).2) hrm,
    ?_, ?_, ?_⟩
  · exact List.sorted_mergeSort
      (fun a b c h1 h2 => nameLe_trans a.name b.name c.name h1 h2)
      (fun a b => nameLe_total a.name b.name) files
  · exact List.mergeSort_perm files _
  · intro k
    exact get_applyRecs (openedRecs (sortByName files)) k
      (fun r hr => by
        obtain ⟨f, hf, hrf⟩ := mem_openedRecs hr
        exact walDecode_shape f.content r hrf)

/-- C3 witness: two segments, the later-named one holding a `set` and the
earlier a `delete`; recovery succeeds and reports the sorted name list. -/
theorem c3_replay_order_witness :
    ∃ seg mt,
      loadFromDir
        [{ name := [50], openOk := true, readOk := true,
           content := encodeSet [7] [1] 5 },
         { name := [49], openOk := true, readOk := true,
           content := encodeDelete [7] 3 }]
        true (fun _ => true) =
      LoadOutcome.ok seg mt
        ((sortByName
          [{ name := [50], openOk := true, readOk := true,
             content := encodeSet [7] [1] 5 },
           { name := [49], openOk := true, readOk := true,
             content := encodeDelete [7] 3 }]).map SegFile.name) := by
  obtain ⟨seg, mt, hok, -, -, -⟩ := c3_replay_order
    [{ name := [50], openOk := true, readOk := true,
       content := encodeSet [7] [1] 5 },
     { name := [49], openOk := true, readOk := true,
       content := encodeDelete [7] 3 }]
    (fun _ => true) (by decide) (fun f hf => rfl)
  exact ⟨seg, mt, hok⟩

/-- C4: recovery is idempotent.  Recovering a directory yields a segment
`seg` and MemTable `mt`; recovering again from a directory holding only
the consolidated segment `seg` yields a MemTable with the identical
per-key state. -/
theorem c4_recovery_idempotent (files : List SegFile) (removeOk : List Nat → Bool)
    (hor : ∀ f ∈ files, f.openOk = true → f.readOk = true)
    (hrm : ∀ f ∈ files, removeOk f.name = true)
    (hbytes : ∀ f ∈ files, byteOk f.content)
    (name : List Nat) (removeOk2 : List Nat → Bool)
    (hrm2 : removeOk2 name = true) :
    ∃ seg mt names mt2,
      loadFromDir files true removeOk = LoadOutcome.ok seg mt names ∧
      loadFromDir [{ name := name, openOk := true, readOk := true, content := seg }]
        true removeOk2 = LoadOutcome.ok seg mt2 [name] ∧
      ∀ k, mt2.get k = mt.get k := by
  have h1 := loadFromDir_eq files removeOk hor hrm
  have hwf : ∀ r ∈ openedRecs (sortByName files), wfRecord r := by
    intro r hr
    obtain ⟨f, hf, hrf⟩ := mem_openedRecs hr
    exact walDecode_wf f.content (hbytes f (List.mem_mergeSort.mp hf)) r hrf
  have hdec : walDecode (encodeList (openedRecs (sortByName files))) =
      openedRecs (sortByName files) := by
    have := walDecode_encodeList (openedRecs (sortByName files)) [] hwf
    simpa [walDecode_nil] using this
  have hsort1 : sortByName
      [({ name := name, openOk := true, readOk := true,
          content := encodeList (openedRecs (sortByName files)) } : SegFile)] =
      [{ name := name, openOk := true, readOk := true,
         content := encodeList (openedRecs (sortByName files)) }] := by
    rw [sortByName, List.mergeSort_singleton]
  have h2 := loadFromDir_eq
    [{ name := name, openOk := true, readOk := true,
       content := encodeList (openedRecs (sortByName files)) }] removeOk2
    (by intro g hg ho
        rw [List.mem_singleton] at hg
        subst hg
        rfl)
    (by intro g hg
        rw [List.mem_singleton] at hg
        subst hg
        exact hrm2)
  rw [hsort1] at h2
  have hopen1 : openedRecs
      [({ name := name, openOk := true, readOk := true,
          content := encodeList (openedRecs (sortByName files)) } : SegFile)] =
      openedRecs (sortByName files) := by
    rw [openedRecs, openedRecs, if_pos rfl, List.append_nil]
    exact hdec
  rw [hopen1] at h2
  exact ⟨_, _, _, _, h1, h2, fun k => rfl⟩

/-- C4 witness: one well-formed segment; re-recovering its consolidated
output reproduces the same per-key MemTable state. -/
theorem c4_recovery_idempotent_witness :
    ∃ seg mt names mt2,
      loadFromDir
        [{ name := [49], openOk := true, readOk := true,
           content := encodeSet [7] [1] 5 }] true (fun _ => true) =
        LoadOutcome.ok seg mt names ∧
      loadFromDir [{ name := [50], openOk := true, readOk := true, content := seg }]
        true (fun _ => true) = LoadOutcome.ok seg mt2 [[50]] ∧
      ∀ k, mt2.get k = mt.get k :=
  c4_recovery_idempotent
    [{ name := [49], openOk := true, readOk := true,
       content := encodeSet [7] [1] 5 }]
    (fun _ => true) (by decide) (fun f hf => rfl) (by decide)
    [50] (fun _ => true) rfl

/-- C5: truncation tolerance.  For a valid encoded-record stream whose
final record lost its last `N` bytes (`1 ≤ N ≤` that record's encoded
length), the reader yields exactly the preceding records and stops
without error. -/
theorem c5_truncation_tolerance (rs : List WalEntry) (r : WalEntry)
    (hrs : ∀ x ∈ rs, wfRecord x) (hr : wfRecord r) (N : Nat)
    (h1 : 1 ≤ N) (h2 : N ≤ (encodeRecord r).length) :
    walDecode ((encodeList (rs ++ [r])).take
      ((encodeList (rs ++ [r])).length - N)) = rs := by
  rw [encodeList_append]
  have hsing : encodeList [r] = encodeRecord r := by
    rw [encodeList, encodeList, List.append_nil]
  rw [hsing, List.length_append]
  have harith : (encodeList rs).length + (encodeRecord r).length - N =
      (encodeList rs).length + ((encodeRecord r).length - N) := by omega
  rw [harith, List.take_append]
  rw [walDecode_encodeList rs _ hrs]
  rw [walDecode_take_encodeRecord r hr _ (by omega), List.append_nil]

/-- C5 witness: a single set record truncated by one byte decodes to
nothing. -/
theorem c5_truncation_tolerance_witness :
    walDecode ((encodeList ([] ++ [(⟨[7], some [8], 3, false⟩ : WalEntry)])).take
      ((encodeList ([] ++ [(⟨[7], some [8], 3, false⟩ : WalEntry)])).length - 1)) = [] :=
  c5_truncation_tolerance [] ⟨[7], some [8], 3, false⟩
    (by simp)
    (by refine ⟨by simp, by norm_num, ?_, by norm_num⟩
        intro v hv
        injection hv with h
        rw [← h]
        norm_num)
    1 (by norm_num) (by decide)

/-- C6: encode/decode round-trip.  For any key, value and 128-bit
timestamp, the bytes `Wal::set` writes decode to the one matching
non-tombstone record, and the bytes `Wal::delete` writes decode to the
one matching tombstone record. -/
theorem c6_roundtrip (k v : List Nat) (ts : Nat)
    (hk : k.length < 2 ^ 64) (hv : v.length < 2 ^ 64) (hts : ts < 2 ^ 128) :
    walDecode (encodeSet k v ts) =
      [{ key := k, value := some v, timestamp := ts, deleted := false }] ∧
    walDecode (encodeDelete k ts) =
      [{ key := k, value := none, timestamp := ts, deleted := true }] := by
  constructor
  · have e1 : encodeSet k v ts = encodeSet k v ts ++ [] := by simp
    rw [e1, walDecode_eq, walNext_encodeSet k v ts [] hk hv hts]
    rfl
  · have e1 : encodeDelete k ts = encodeDelete k ts ++ [] := by simp
    rw [e1, walDecode_eq, walNext_encodeDelete k ts [] hk hts]
    rfl

/-- C6 witness: round-trip at a concrete key, empty value and timestamp 0. -/
theorem c6_roundtrip_witness :
    walDecode (encodeSet [5] [] 0) =
      [{ key := [5], value := some [], timestamp := 0, deleted := false }] ∧
    walDecode (encodeDelete [5] 0) =
      [{ key := [5], value := none, timestamp := 0, deleted := true }] :=
  c6_roundtrip [5] [] 0 (by norm_num) (by norm_num) (by norm_num)

/-- C7: for every call sequence from the empty MemTable, `len` equals the
number of distinct keys touched, and `get k` returns exactly the entry of
the last operation on `k` (so `none` for a key never touched). -/
theorem c7_memtable_ops (ops : List Op) :
    (applyOps ops).len = ((ops.map Op.key).toFinset).card ∧
    ∀ k, (applyOps ops).get k = (lastOp ops k).map Op.entry :=
  ⟨applyOps_len ops, fun k => applyOps_get ops k⟩

/-- C8: every MemTable reachable from empty has entries strictly
increasing by byte-lexicographic key (hence pairwise-distinct keys), and
`set` and `delete` preserve the sortedness invariant. -/
theorem c8_sorted_invariant :
    (∀ ops : List Op, sortedEntries (applyOps ops).entries ∧
      ((applyOps ops).entries.map MemTableEntry.key).Nodup) ∧
    (∀ (m : MemTable) (k v : List Nat) (ts : Nat),
      sortedEntries m.entries → sortedEntries (m.set k v ts).entries) ∧
    (∀ (m : MemTable) (k : List Nat) (ts : Nat),
      sortedEntries m.entries → sortedEntries (m.delete k ts).entries) := by
  refine ⟨fun ops => ⟨sorted_applyOps ops, ?_⟩, ?_, ?_⟩
  · have h := sorted_applyOps ops
    rw [sortedEntries] at h
    have h2 : (applyOps ops).entries.Pairwise (fun a b => a.key ≠ b.key) :=
      h.imp (fun hab => keyLt_ne hab)
    exact List.pairwise_map.mpr h2
  · intro m k v ts hm
    rw [set_entries]
    exact sortedEntries_upsert _ hm
  · intro m k ts hm
    rw [delete_entries]
    exact sortedEntries_upsert _ hm

/-- C8 witness: the invariant applied at a concrete sorted MemTable. -/
theorem c8_sorted_invariant_witness :
    sortedEntries ((MemTable.new.set [1] [2] 3).entries) :=
  c8_sorted_invariant.2.1 MemTable.new [1] [2] 3 List.Pairwise.nil

/-- C9: the two segment readers (src/wal_iterator.rs and
src/wal/iterator.rs) decode identical record sequences on every input
byte stream. -/
theorem c9_readers_equiv (bs : List Nat) : walDecode2 bs = walDecode bs :=
  walDecodeFuel2_eq bs.length bs

/-- C10: on a key that already holds an entry, `set` and `delete` replace
it unconditionally with the new value (or tombstone) and the call's
timestamp, even when that timestamp is strictly older than the stored
one - the MemTable never compares timestamps. -/
theorem c10_overwrite_unconditional (m : MemTable) (k v : List Nat) (ts : Nat)
    (e : MemTableEntry) (hold : m.get k = some e) (hts : ts < e.timestamp) :
    (m.set k v ts).get k =
      some { key := k, value := some v, timestamp := ts, deleted := false } ∧
    (m.delete k ts).get k =
      some { key := k, value := none, timestamp := ts, deleted := true } := by
  constructor
  · rw [get_entries, set_entries, lookup_upsert]
    simp
  · rw [get_entries, delete_entries, lookup_upsert]
    simp

/-- C10 witness: a stored entry at timestamp 5 is overwritten by calls at
timestamp 1. -/
theorem c10_overwrite_unconditional_witness :
    ((MemTable.new.set [1] [9] 5).set [1] [7] 1).get [1] =
      some { key := [1], value := some [7], timestamp := 1, deleted := false } ∧
    ((MemTable.new.set [1] [9] 5).delete [1] 1).get [1] =
      some { key := [1], value := none, timestamp := 1, deleted := true } :=
  c10_overwrite_unconditional (MemTable.new.set [1] [9] 5) [1] [7] 1
    { key := [1], value := some [9], timestamp := 5, deleted := false }
    (by decide) (by decide)

end RustyDb
